import Mathlib

/-!
# bsa-cal: schedule normalisation and rendering

A shallow embedding of `src/bsa-cal/main.go`.

* Go strings are lists of characters. Every string the program handles comes
  out of the JSON decoder, which yields valid UTF-8, so a list of Unicode
  scalar values loses nothing.
* The standard-library functions `main` relies on (`strings.TrimSpace`,
  `time.Parse` with the layout `time.RFC3339`, `Time.In`, `Time.Hour`,
  `Time.Format`, `fmt.Sprintf` with the verb `%v`, `json.Unmarshal`) are
  embedded as executable functions following package `time`, `strings`, `fmt`
  and `encoding/json` of the Go distribution.
* `log.Fatalf` ends the process: a run is an `Option`, `none` for a fatal exit
  and `some doc` for the document handed to `os.WriteFile`. Log lines, the
  HTTP fetch and the file system are outside the embedding.
-/

namespace BsaCal

/-! ## Strings -/

/-- Go `unicode.IsSpace`: the Latin-1 space characters and the code points
with the Unicode White_Space property. -/
def isSpace (c : Char) : Bool :=
  let n := c.toNat
  (9 ≤ n && n ≤ 13) || n == 32 || n == 0x85 || n == 0xA0 || n == 0x1680
    || (0x2000 ≤ n && n ≤ 0x200A) || n == 0x2028 || n == 0x2029 || n == 0x202F
    || n == 0x205F || n == 0x3000

/-- Go `strings.TrimLeftFunc(s, unicode.IsSpace)`. -/
def TrimLeft (s : List Char) : List Char := s.dropWhile isSpace

/-- Go `strings.TrimRightFunc(s, unicode.IsSpace)`. -/
def TrimRight (s : List Char) : List Char := (s.reverse.dropWhile isSpace).reverse

/-- Go `strings.TrimSpace`: leading and trailing white space removed. -/
def TrimSpace (s : List Char) : List Char := TrimRight (TrimLeft s)

/-- Go `fmt.Sprintf` restricted to templates whose only verb is `%v` and to
string operands: every `%v` is replaced by the next operand, printed as it is,
and `%%` prints one percent sign. A verb with no operand left prints
`%!v(MISSING)` as in Go. -/
def Sprintf : List Char → List (List Char) → List Char
  | [], _ => []
  | '%' :: 'v' :: rest, a :: args => a ++ Sprintf rest args
  | '%' :: 'v' :: rest, [] => "%!v(MISSING)".toList ++ Sprintf rest []
  | '%' :: '%' :: rest, args => '%' :: Sprintf rest args
  | c :: rest, args => c :: Sprintf rest args

/-! ## Package time -/

/-- The locations the program meets: `time.UTC`, a fixed offset created by the
parser (`time.FixedZone`), and the zone loaded by
`time.LoadLocation("Europe/Berlin")`. -/
inductive Location where
  | UTC
  | FixedZone (offset : Int)
  | Berlin
  deriving DecidableEq, Repr

/-- Go `time.Time`: an instant (seconds since the Unix epoch and nanoseconds
within the second) together with the location it is shown in. -/
structure Time where
  unixSec : Int
  nsec : Nat
  loc : Location
  deriving DecidableEq, Repr

/-- Go `isLeap`. -/
def isLeap (year : Int) : Bool :=
  year % 4 == 0 && (year % 100 != 0 || year % 400 == 0)

/-- Go `daysBefore`: days of a non-leap year before the month with index `m`
(January is index 0; index 12 is the whole year). -/
def daysBefore (m : Nat) : Nat :=
  match m with
  | 0 => 0
  | 1 => 31
  | 2 => 59
  | 3 => 90
  | 4 => 120
  | 5 => 151
  | 6 => 181
  | 7 => 212
  | 8 => 243
  | 9 => 273
  | 10 => 304
  | 11 => 334
  | _ => 365

/-- Go `daysIn(m, year)`. -/
def daysIn (month : Nat) (year : Int) : Nat :=
  if month == 2 && isLeap year then 29
  else daysBefore month - daysBefore (month - 1)

/-- Days from 1970-01-01 to the first of January of `year` in the proleptic
Gregorian calendar. -/
def daysSinceEpoch (year : Int) : Int :=
  let y := year - 1
  365 * y + y / 4 - y / 100 + y / 400 - 719162

/-- Go `time.Date(year, month, day, hour, min, sec, nsec, time.UTC)` for
arguments already in range: the instant as Unix seconds. -/
def Date (year : Int) (month day hour min sec nsec : Nat) : Time :=
  let d : Int := daysSinceEpoch year + daysBefore (month - 1)
    + (if isLeap year && 3 ≤ month then 1 else 0) + ((day : Int) - 1)
  { unixSec := d * 86400 + (hour * 3600 + min * 60 + sec : Nat), nsec := nsec, loc := .UTC }

/-- The zone transitions of Europe/Berlin up to 1980 as stored in the time
zone database: Unix time of the transition and the offset from UTC in force
from then on. -/
def berlinTransitions : List (Int × Int) :=
  [(-2422054408, 3600), (-1693706400, 7200), (-1680483600, 3600),
   (-1663455600, 7200), (-1650150000, 3600), (-1632006000, 7200),
   (-1618700400, 3600), (-938905200, 7200), (-857257200, 3600),
   (-844556400, 7200), (-828226800, 3600), (-812502000, 7200),
   (-796777200, 3600), (-781052400, 7200), (-776563200, 10800),
   (-765936000, 7200), (-761180400, 3600), (-748479600, 7200),
   (-733273200, 3600), (-717631200, 7200), (-714610800, 10800),
   (-710380800, 7200), (-701910000, 3600), (-684975600, 7200),
   (-670460400, 3600), (-654130800, 7200), (-639010800, 3600),
   (323830800, 7200), (338950800, 3600)]

/-- The offset of the last transition at or before `sec`, starting from
`cur`. -/
def lookupTransitions : List (Int × Int) → Int → Int → Int
  | [], _, cur => cur
  | (tWhen, off) :: rest, sec, cur =>
    if tWhen ≤ sec then lookupTransitions rest sec off else cur

/-- The civil year of a day count since 1970-01-01 (Go `absDate`: 400-, 100-,
4- and 1-year cycles), with the day of that year, counted from 0. -/
def yearDay (days : Int) : Int × Nat :=
  let d := days + 719162
  let n400 := d / 146097
  let d := (d % 146097).toNat
  let n100 := d / 36524
  let n100 := n100 - n100 / 4
  let d := d - 36524 * n100
  let n4 := d / 1461
  let d := d - 1461 * n4
  let n1 := d / 365
  let n1 := n1 - n1 / 4
  let d := d - 365 * n1
  (400 * n400 + (100 * n100 + 4 * n4 + n1 : Nat) + 1, d)

/-- Unix time of 01:00 UTC on the last Sunday of `month` in `year`: the instant
of the transitions of the rule `EU` . -/
def lastSundayAt1 (year : Int) (month : Nat) : Int :=
  let last : Int := daysSinceEpoch year + daysBefore (month - 1)
    + (if isLeap year && 3 ≤ month then 1 else 0) + ((daysIn month year : Int) - 1)
  let weekday := (last + 4) % 7
  (last - weekday) * 86400 + 3600

/-- The offset from UTC, in seconds, of Europe/Berlin at the Unix time `sec`:
local mean time (+0:53:28) before April 1893, the stored transitions up to
1980, and from 1981 the rule of the European Union, summer time from the last
Sunday of March to the last Sunday of September (up to 1995) or of October
(since 1996), both changes at 01:00 UTC. -/
def berlinOffset (sec : Int) : Int :=
  if sec < 347155200 then lookupTransitions berlinTransitions sec 3208
  else
    let year := (yearDay (sec / 86400)).1
    let dstEnd := lastSundayAt1 year (if year ≤ 1995 then 9 else 10)
    if lastSundayAt1 year 3 ≤ sec && sec < dstEnd then 7200 else 3600

/-- Go `(*Location).lookup`: the offset in force at an instant. -/
def Location.lookup : Location → Int → Int
  | .UTC, _ => 0
  | .FixedZone offset, _ => offset
  | .Berlin, sec => berlinOffset sec

/-- Go `Time.In`: the same instant, shown in another location. -/
def Time.In (t : Time) (loc : Location) : Time := { t with loc := loc }

/-- Go `Time.abs`: seconds of the local wall clock (the Unix epoch as origin). -/
def Time.abs (t : Time) : Int := t.unixSec + t.loc.lookup t.unixSec

/-- Go `Time.Hour`. -/
def Time.Hour (t : Time) : Nat := ((t.abs % 86400) / 3600).toNat

/-- Go `Time.Minute`. -/
def Time.Minute (t : Time) : Nat := ((t.abs % 3600) / 60).toNat

/-- Go `Time.Second`. -/
def Time.Second (t : Time) : Nat := (t.abs % 60).toNat

/-- Go `Time.Nanosecond`. -/
def Time.Nanosecond (t : Time) : Nat := t.nsec

/-- Go `Time.Date`: year, month and day of the local wall clock. -/
def Time.civil (t : Time) : Int × Nat × Nat :=
  let (year, yday) := yearDay (t.abs / 86400)
  if isLeap year && yday == 59 then (year, 2, 29)
  else
    let day := if isLeap year && 59 < yday then yday - 1 else yday
    let month := day / 31
    if daysBefore (month + 1) ≤ day then (year, month + 2, day - daysBefore (month + 1) + 1)
    else (year, month + 1, day - daysBefore month + 1)

/-- Decimal digits of a natural number, most significant first, from at most
`fuel` divisions by ten. -/
def utoa : Nat → Nat → List Char
  | 0, _ => []
  | fuel + 1, u =>
    (if u < 10 then [] else utoa fuel (u / 10)) ++ [Char.ofNat (48 + u % 10)]

/-- Go `appendInt(b, x, width)`: a minus sign for a negative number, then the
decimal digits padded with zeros on the left to at least `width` digits. -/
def appendInt (x : Int) (width : Nat) : List Char :=
  let digits := utoa (x.natAbs + 1) x.natAbs
  (if x < 0 then ['-'] else []) ++ List.replicate (width - digits.length) '0' ++ digits

/-- Layout of the rendered dates. -/
def timeFormat : List Char := "02.01.2006".toList

/-- Go `Time.Format(timeFormat)` for the layout `02.01.2006`: day and month on
two digits, the year on four, with dots between. -/
def Time.Format (t : Time) : List Char :=
  let (year, month, day) := t.civil
  appendInt day 2 ++ '.' :: (appendInt month 2 ++ '.' :: appendInt year 4)

/-! ### Parsing with the layout `time.RFC3339` -/

/-- A decimal digit. -/
def digitChar (c : Char) : Bool := 48 ≤ c.toNat && c.toNat ≤ 57

/-- Go `isDigit(s, i)`: position `i` exists and holds a decimal digit. -/
def isDigit (s : List Char) (i : Nat) : Bool :=
  match s.get? i with
  | some c => digitChar c
  | none => false

/-- Go `commaOrPeriod`. -/
def commaOrPeriod (c : Char) : Bool := c == '.' || c == ','

/-- The Go slice expression `s[lo:hi]`. -/
def slice (s : List Char) (lo hi : Nat) : List Char := (s.drop lo).take (hi - lo)

/-- The value of a string of decimal digits continuing the value `x`; `none`
when a character is not a digit. -/
def digitsValue : List Char → Nat → Option Nat
  | [], x => some x
  | c :: cs, x => if digitChar c then digitsValue cs (x * 10 + (c.toNat - 48)) else none

/-- The closure `parseUint` of Go `parseRFC3339`: an unsigned decimal number
within `[min, max]`. The Go closure clears a shared flag on failure, which
makes the whole parse fail; here the failure is `none`. -/
def parseUint (s : List Char) (min max : Nat) : Option Nat :=
  match digitsValue s 0 with
  | some x => if x < min || max < x then none else some x
  | none => none

/-- Number of decimal digits at the head of a string. -/
def countDigits : List Char → Nat
  | [] => 0
  | c :: cs => if digitChar c then countDigits cs + 1 else 0

/-- Go `parseNanoseconds(value, nbytes)`: `value` starts with the separator and
`nbytes - 1` digits follow; at most nine digits count, scaled to nanoseconds. -/
def parseNanoseconds (value : List Char) (nbytes : Nat) : Option Nat :=
  match value with
  | [] => none
  | c :: _ =>
    if !commaOrPeriod c then none
    else
      let nbytes := if 10 < nbytes then 10 else nbytes
      match digitsValue (slice value 1 nbytes) 0 with
      | some ns => some (ns * 10 ^ (10 - nbytes))
      | none => none

/-- The instant `Date(year, month, day, hour, min, sec, nsec, UTC)` moved back
by the zone offset read from the text (`t.addSec(-zoneOffset)`), shown in the
fixed zone of that offset. Go shows it in `time.Local` instead when the local
zone has the same offset at that instant; the instant is the same. -/
def dateWithOffset (year : Int) (month day hour min sec nsec : Nat) (zoneOffset : Int) : Time :=
  let t := Date year month day hour min sec nsec
  { t with unixSec := t.unixSec - zoneOffset, loc := .FixedZone zoneOffset }

/-- Go `parseRFC3339`: the fast path of `time.Parse` for the layout
`time.RFC3339`. -/
def parseRFC3339 (s : List Char) : Option Time :=
  if s.length < 19 then none
  else
    match parseUint (slice s 0 4) 0 9999, parseUint (slice s 5 7) 1 12 with
    | some year, some month =>
      match parseUint (slice s 8 10) 1 (daysIn month year), parseUint (slice s 11 13) 0 23,
        parseUint (slice s 14 16) 0 59, parseUint (slice s 17 19) 0 59 with
      | some day, some hour, some min, some sec =>
        if !(s.get? 4 == some '-' && s.get? 7 == some '-' && s.get? 10 == some 'T'
            && s.get? 13 == some ':' && s.get? 16 == some ':') then none
        else
          let s := s.drop 19
          let hasFrac := 2 ≤ s.length && s.get? 0 == some '.' && isDigit s 1
          let n := 2 + countDigits (s.drop 2)
          let nsec := if hasFrac then (parseNanoseconds s n).getD 0 else 0
          let s := if hasFrac then s.drop n else s
          if s.length == 1 && s.get? 0 == some 'Z' then
            some (Date year month day hour min sec nsec)
          else if s.length != 6 then none
          else
            match parseUint (slice s 1 3) 0 23, parseUint (slice s 4 6) 0 59 with
            | some hr, some mm =>
              if !((s.get? 0 == some '-' || s.get? 0 == some '+') && s.get? 3 == some ':') then none
              else
                let zoneOffset : Int := ((hr * 60 + mm) * 60 : Nat)
                let zoneOffset := if s.get? 0 == some '-' then -zoneOffset else zoneOffset
                some (dateWithOffset year month day hour min sec nsec zoneOffset)
            | _, _ => none
      | _, _, _, _ => none
    | _, _ => none

/-- Go `getnum(s, fixed)`: a number of one or two digits at the head of `s`
(of exactly two when `fixed`), and the rest of `s`. -/
def getnum (s : List Char) (fixed : Bool) : Option (Nat × List Char) :=
  match s with
  | [] => none
  | c0 :: rest =>
    if !digitChar c0 then none
    else
      match rest with
      | c1 :: rest1 =>
        if digitChar c1 then some ((c0.toNat - 48) * 10 + (c1.toNat - 48), rest1)
        else if fixed then none else some (c0.toNat - 48, rest)
      | [] => if fixed then none else some (c0.toNat - 48, rest)

/-- Go `skip(value, prefix)` for a literal of one character that is not a
blank, the only literals of the layout: the character must come next. -/
def skip (value : List Char) (c : Char) : Option (List Char) :=
  match value with
  | [] => none
  | v :: rest => if v == c then some rest else none

/-- The zone element `Z07:00` of the general parser: `Z` for UTC (`none`), or a
sign, two digits, a colon and two digits, with hours up to 24 and minutes up to
60 let through. Returns the offset in seconds and the rest of the text. -/
def parseZone (value : List Char) : Option (Option Int × List Char) :=
  match value with
  | 'Z' :: rest => some (none, rest)
  | _ =>
    if value.length < 6 then none
    else if value.get? 3 != some ':' then none
    else
      match getnum (slice value 1 3) true, getnum (slice value 4 6) true with
      | some (hr, _), some (mm, _) =>
        if 24 < hr || 60 < mm then none
        else
          let zoneOffset : Int := ((hr * 60 + mm) * 60 : Nat)
          if value.get? 0 == some '+' then some (some zoneOffset, value.drop 6)
          else if value.get? 0 == some '-' then some (some (-zoneOffset), value.drop 6)
          else none
      | _, _ => none

/-- The seconds element of the general parser followed by the fraction it
accepts although the layout has none: a period or a comma and digits. Returns
seconds, nanoseconds and the rest of the text. -/
def parseSeconds (value : List Char) : Option (Nat × Nat × List Char) :=
  match getnum value true with
  | none => none
  | some (sec, value) =>
    if 60 ≤ sec then none
    else if 2 ≤ value.length && (match value.get? 0 with | some c => commaOrPeriod c | none => false)
        && isDigit value 1 then
      let n := 2 + countDigits (value.drop 2)
      match parseNanoseconds value n with
      | some nsec => some (sec, nsec, value.drop n)
      | none => none
    else some (sec, 0, value)

/-- Go `parse(layout, value, UTC, Local)` unfolded for the layout
`2006-01-02T15:04:05Z07:00`: the elements stdLongYear, stdZeroMonth,
stdZeroDay, stdHour, stdZeroMinute, stdZeroSecond and stdISO8601ColonTZ with
the literals between them, then the check that nothing is left and that the
day exists in its month. -/
def parse (value : List Char) : Option Time :=
  if value.length < 4 || !isDigit value 0 then none
  else
    match digitsValue (slice value 0 4) 0 with
    | none => none
    | some year =>
      match (skip (value.drop 4) '-').bind (fun v => getnum v true) with
      | none => none
      | some (month, value) =>
        if month == 0 || 12 < month then none
        else
          match (skip value '-').bind (fun v => getnum v true) with
          | none => none
          | some (day, value) =>
            match (skip value 'T').bind (fun v => getnum v false) with
            | none => none
            | some (hour, value) =>
              if 24 ≤ hour then none
              else
                match (skip value ':').bind (fun v => getnum v true) with
                | none => none
                | some (min, value) =>
                  if 60 ≤ min then none
                  else
                    match (skip value ':').bind parseSeconds with
                    | none => none
                    | some (sec, nsec, value) =>
                      match parseZone value with
                      | none => none
                      | some (zone, value) =>
                        if !value.isEmpty then none
                        else if day < 1 || daysIn month year < day then none
                        else
                          match zone with
                          | none => some (Date year month day hour min sec nsec)
                          | some zoneOffset =>
                            some (dateWithOffset year month day hour min sec nsec zoneOffset)

/-- Go `time.Parse(time.RFC3339, value)`: the fast path, and the general
parser when the fast path gives up. `none` stands for a non-nil error. -/
def Parse (value : List Char) : Option Time :=
  match parseRFC3339 value with
  | some t => some t
  | none => parse value

/-! ## Package encoding/json -/

/-- A JSON value as `json.Unmarshal` stores it in an `interface{}`: `null` is
the nil interface, a string is a Go `string`, a number a `float64` (`fits`
tells whether the literal is in the range of `float64`; the decoder reports an
error when it is not), an array a `[]interface{}` and an object a
`map[string]interface{}`. -/
inductive Json where
  | null
  | bool (b : Bool)
  | number (fits : Bool)
  | string (s : List Char)
  | array (xs : List Json)
  | object (members : List (List Char × Json))

mutual
/-- Whether every number inside a value converts to `float64`. -/
def numbersFit : Json → Bool
  | .number fits => fits
  | .array xs => numbersFitList xs
  | .object members => numbersFitMembers members
  | _ => true
/-- Whether every number inside the values of a list converts to `float64`. -/
def numbersFitList : List Json → Bool
  | [] => true
  | x :: xs => numbersFit x && numbersFitList xs
/-- Whether every number inside the members of an object converts to
`float64`. -/
def numbersFitMembers : List (List Char × Json) → Bool
  | [] => true
  | (_, v) :: members => numbersFit v && numbersFitMembers members
end

/-- Record as decoded from the sheet: three fields of type `interface{}`. -/
structure BsaScheduleUntyped where
  Weekday : Json
  Date : Json
  State : Json

/-- Validated record. -/
structure BsaSchedule where
  Weekday : List Char
  Date : Time
  State : List Char
  deriving DecidableEq, Repr

/-- Go `foldRune` of encoding/json on the characters that fold to an ASCII
letter: the ASCII letters themselves, the long s (U+017F) and the Kelvin sign
(U+212A). Other characters never fold to ASCII and are left as they are, which
is all a comparison with the ASCII field names needs. -/
def foldRune (c : Char) : Char :=
  if 97 ≤ c.toNat && c.toNat ≤ 122 then Char.ofNat (c.toNat - 32)
  else if c.toNat == 0x17F then 'S'
  else if c.toNat == 0x212A then 'K'
  else c

/-- Go `foldName` of encoding/json: object keys match field names up to case. -/
def foldName (name : List Char) : List Char := name.map foldRune

/-- One member of a JSON object stored into the record: the field whose tag
(`wochentag`, `datum`, `status`) matches the key receives the value; a key
that matches no field is skipped. `none` is a decoding error (a number out of
range inside the stored value). -/
def storeMember (r : BsaScheduleUntyped) (key : List Char) (v : Json) :
    Option BsaScheduleUntyped :=
  if foldName key == "WOCHENTAG".toList then
    if numbersFit v then some { r with Weekday := v } else none
  else if foldName key == "DATUM".toList then
    if numbersFit v then some { r with Date := v } else none
  else if foldName key == "STATUS".toList then
    if numbersFit v then some { r with State := v } else none
  else some r

/-- The members of a JSON object stored in order; a later member with the same
key replaces an earlier one. -/
def decodeObject : List (List Char × Json) → BsaScheduleUntyped → Option BsaScheduleUntyped
  | [], r => some r
  | (key, v) :: members, r =>
    match storeMember r key v with
    | some r1 => decodeObject members r1
    | none => none

/-- One element of the array decoded into a record: an object fills the
fields, `null` leaves the zero record, anything else is an
`UnmarshalTypeError` . -/
def decodeElement : Json → Option BsaScheduleUntyped
  | .null => some ⟨.null, .null, .null⟩
  | .object members => decodeObject members ⟨.null, .null, .null⟩
  | _ => none

/-- The elements of the array decoded in order. -/
def decodeArray : List Json → Option (List BsaScheduleUntyped)
  | [] => some []
  | x :: xs =>
    match decodeElement x, decodeArray xs with
    | some r, some rs => some (r :: rs)
    | _, _ => none

/-- Go `json.Unmarshal(read, &untypedBsaSchedule)` with `untypedBsaSchedule` of
type `[]BsaScheduleUntyped`. The fetched bytes are given as the JSON value they
spell, `none` when they are not well-formed JSON (a `SyntaxError`). The result
is `none` when the returned error is not nil. -/
def Unmarshal (read : Option Json) : Option (List BsaScheduleUntyped) :=
  match read with
  | none => none
  | some .null => some []
  | some (.array xs) => decodeArray xs
  | some _ => none

/-! ## main -/

/-- Template of the document. -/
def htmlResultTmpl : List Char :=
  "<!DOCTYPE html>\n<html><head><link rel=\"stylesheet\" href=\"bsa-style.css\"></head>\n<body>\n<table class=\"bsa-table\">\n<thead>\n\t<tr>\n\t\t<th>Wochentag</th>\n\t\t<th>Datum</th>\n\t\t<th>Status</th>\n\t</tr>\n</thead>\n<tbody>\n%v\n</tbody>\n</table>\n</body>\n</html>\n".toList

/-- Template of one table row. -/
def rowTmpl : List Char :=
  "<tr class=\"%v\">\n\t<td class=\"td-weekday\">%v</td>\n\t<td class=\"td-date\">%v</td>\n\t<td class=\"td-status\">%v</td>\n</tr>".toList

/-- What one pass through the body of the first loop of `main` does with a
record: `continue`, `log.Fatalf`, or `append`. -/
inductive Step where
  | skip
  | fatal
  | append (entry : BsaSchedule)
  deriving DecidableEq, Repr

/-- Body of the loop over `untypedBsaSchedule` (lines 83 to 109 of main.go):
the three type assertions with their blank checks, the parse of the date, the
conversion to `berlin` and the test of the local hour. -/
def loopBody (berlin : Location) (scheduleEntry : BsaScheduleUntyped) : Step :=
  match scheduleEntry.Weekday with
  | .string weekday =>
    if (TrimSpace weekday).length == 0 then .skip
    else
      match scheduleEntry.Date with
      | .string rawDate =>
        if (TrimSpace rawDate).length == 0 then .skip
        else
          match scheduleEntry.State with
          | .string state =>
            if (TrimSpace state).length == 0 then .skip
            else
              match Parse rawDate with
              | none => .skip
              | some date =>
                let localDate := date.In berlin
                if localDate.Hour != 0 then .fatal
                else .append { Weekday := weekday, Date := localDate, State := state }
          | _ => .skip
      | _ => .skip
  | _ => .skip

/-- The loop over `untypedBsaSchedule` with the slice `bsaSchedule` built so
far; `none` when `log.Fatalf` ends the run. -/
def normalizeLoop (berlin : Location) :
    List BsaScheduleUntyped → List BsaSchedule → Option (List BsaSchedule)
  | [], bsaSchedule => some bsaSchedule
  | scheduleEntry :: rest, bsaSchedule =>
    match loopBody berlin scheduleEntry with
    | .skip => normalizeLoop berlin rest bsaSchedule
    | .fatal => none
    | .append entry => normalizeLoop berlin rest (bsaSchedule ++ [entry])

/-- Lines 81 to 110 of main.go: the Normalizer on the decoded records, with the
zone loaded by `time.LoadLocation("Europe/Berlin")` . -/
def normalize (untypedBsaSchedule : List BsaScheduleUntyped) : Option (List BsaSchedule) :=
  normalizeLoop .Berlin untypedBsaSchedule []

/-- One row: line 116 of main.go. -/
def renderRow (scheduleEntry : BsaSchedule) : List Char :=
  Sprintf rowTmpl [scheduleEntry.State, scheduleEntry.Weekday, scheduleEntry.Date.Format,
    scheduleEntry.State]

/-- The loop over `bsaSchedule` (lines 112 to 117 of main.go) from the table
body built so far. -/
def tableBodyLoop : List BsaSchedule → List Char → List Char
  | [], tableBody => tableBody
  | scheduleEntry :: rest, tableBody => tableBodyLoop rest (tableBody ++ renderRow scheduleEntry)

/-- The document written to the result file (lines 112 to 119 of main.go). -/
def render (bsaSchedule : List BsaSchedule) : List Char :=
  Sprintf htmlResultTmpl [tableBodyLoop bsaSchedule []]

/-- Lines 81 to 119 of main.go on the decoded records: the document handed to
`os.WriteFile`, `none` when the run ends in `log.Fatalf` before. -/
def mainDecoded (untypedBsaSchedule : List BsaScheduleUntyped) : Option (List Char) :=
  match normalize untypedBsaSchedule with
  | none => none
  | some bsaSchedule => some (render bsaSchedule)

/-- Lines 75 to 119 of main.go on the fetched payload: decode (a failure is
fatal), normalise, render. -/
def main (read : Option Json) : Option (List Char) :=
  match Unmarshal read with
  | none => none
  | some untypedBsaSchedule => mainDecoded untypedBsaSchedule

/-! ## Vocabulary of the specification -/

/-- A field that keeps its record out of the schedule: absent or null (the nil
interface), not a string, or a string that is empty once trimmed. -/
def BlankField (v : Json) : Prop := ∀ s, v = .string s → TrimSpace s = []

/-- The entry the specification expects of a record: when weekday, date and
status are strings that are not empty once trimmed, the date parses and its
hour in Europe/Berlin is zero, the entry with that weekday, that status and the
parsed date in Europe/Berlin; no entry otherwise. -/
def specEntry (r : BsaScheduleUntyped) : Option BsaSchedule :=
  match r.Weekday, r.Date, r.State with
  | .string w, .string d, .string s =>
    if TrimSpace w ≠ [] ∧ TrimSpace d ≠ [] ∧ TrimSpace s ≠ [] then
      match Parse d with
      | some t =>
        if (t.In .Berlin).Hour = 0 then some { Weekday := w, Date := t.In .Berlin, State := s }
        else none
      | none => none
    else none
  | _, _, _ => none

/-- The table row the specification describes: the row class, then the cells
for weekday, date and status. -/
def specRow (cls weekday date status : List Char) : List Char :=
  "<tr class=\"".toList ++ cls ++ "\">\n\t<td class=\"td-weekday\">".toList ++ weekday
    ++ "</td>\n\t<td class=\"td-date\">".toList ++ date
    ++ "</td>\n\t<td class=\"td-status\">".toList ++ status ++ "</td>\n</tr>".toList

/-- The fixed table skeleton around a table body. -/
def specDocument (body : List Char) : List Char :=
  ("<!DOCTYPE html>\n<html><head><link rel=\"stylesheet\" href=\"bsa-style.css\"></head>\n"
    ++ "<body>\n<table class=\"bsa-table\">\n<thead>\n\t<tr>\n\t\t<th>Wochentag</th>\n"
    ++ "\t\t<th>Datum</th>\n\t\t<th>Status</th>\n\t</tr>\n</thead>\n<tbody>\n").toList
    ++ body ++ "\n</tbody>\n</table>\n</body>\n</html>\n".toList

/-- The date text of the specification: day and month on two digits and the
year on four, separated by dots. -/
def specDate (year : Int) (month day : Nat) : List Char :=
  appendInt day 2 ++ ".".toList ++ appendInt month 2 ++ ".".toList ++ appendInt year 4

/-- A decoded record whose three fields are strings. -/
def record (weekday date status : String) : BsaScheduleUntyped :=
  { Weekday := .string weekday.toList, Date := .string date.toList,
    State := .string status.toList }

/-- A JSON object with the three keys of the sheet, all strings. -/
def jsonRecord (weekday date status : String) : Json :=
  .object [("wochentag".toList, .string weekday.toList), ("datum".toList, .string date.toList),
    ("status".toList, .string status.toList)]

/-- The end-to-end example of the specification: a Montag record and a record
with an empty weekday. -/
def examplePayload : Json :=
  .array [jsonRecord "Montag" "2024-01-01T00:00:00+01:00" "offen",
    jsonRecord "" "2024-01-02T00:00:00+01:00" "offen"]

/-- The entry of the Montag record of the example: midnight of 1 January 2024
in Europe/Berlin. -/
def montagEntry : BsaSchedule :=
  { Weekday := "Montag".toList, Date := { unixSec := 1704063600, nsec := 0, loc := .Berlin },
    State := "offen".toList }
/-! ## The loop of the Normalizer -/

/-- What the body of the loop yields when it appends: the record holds three
strings that are not blank, the date parses, and its local hour is zero. -/
theorem loopBody_append_inv (berlin : Location) (r : BsaScheduleUntyped) (e : BsaSchedule)
    (h : loopBody berlin r = .append e) :
    ∃ w d s t, r.Weekday = .string w ∧ r.Date = .string d ∧ r.State = .string s
      ∧ TrimSpace w ≠ [] ∧ TrimSpace d ≠ [] ∧ TrimSpace s ≠ []
      ∧ Parse d = some t ∧ (t.In berlin).Hour = 0
      ∧ e = { Weekday := w, Date := t.In berlin, State := s } := by
  obtain ⟨jw, jd, js⟩ := r
  cases jw with
  | string w =>
    by_cases hwl : TrimSpace w = []
    · simp [loopBody, hwl] at h
    · cases jd with
      | string d =>
        by_cases hdl : TrimSpace d = []
        · simp [loopBody, hwl, hdl] at h
        · cases js with
          | string s =>
            by_cases hsl : TrimSpace s = []
            · simp [loopBody, hwl, hdl, hsl] at h
            · cases ht : Parse d with
              | none => simp [loopBody, hwl, hdl, hsl, ht] at h
              | some t =>
                by_cases hh : (t.In berlin).Hour = 0
                · simp [loopBody, hwl, hdl, hsl, ht, hh] at h
                  exact ⟨w, d, s, t, rfl, rfl, rfl, hwl, hdl, hsl, ht, hh, h.symm⟩
                · simp [loopBody, hwl, hdl, hsl, ht, hh] at h
          | _ => simp [loopBody, hwl, hdl] at h
      | _ => simp [loopBody, hwl] at h
  | _ => simp [loopBody] at h

/-- The body of the loop on a record of three strings that are not blank. -/
theorem loopBody_strings (berlin : Location) (r : BsaScheduleUntyped) (w d s : List Char)
    (hw : r.Weekday = .string w) (hd : r.Date = .string d) (hs : r.State = .string s)
    (hwl : TrimSpace w ≠ []) (hdl : TrimSpace d ≠ []) (hsl : TrimSpace s ≠ []) :
    loopBody berlin r =
      match Parse d with
      | none => .skip
      | some date =>
        if (date.In berlin).Hour != 0 then .fatal
        else .append { Weekday := w, Date := date.In berlin, State := s } := by
  unfold loopBody
  simp [hw, hd, hs, hwl, hdl, hsl]

/-- The loop continued from a slice built so far only prepends that slice. -/
theorem normalizeLoop_acc (berlin : Location) (rs : List BsaScheduleUntyped)
    (acc : List BsaSchedule) :
    normalizeLoop berlin rs acc = (normalizeLoop berlin rs []).map (fun out => acc ++ out) := by
  induction rs generalizing acc with
  | nil => simp [normalizeLoop]
  | cons r rest ih =>
    simp only [normalizeLoop]
    cases hb : loopBody berlin r with
    | skip => simpa using ih acc
    | fatal => simp
    | append e =>
      simp only
      rw [ih (acc ++ [e]), ih ([] ++ [e])]
      cases normalizeLoop berlin rest [] <;> simp

/-- The loop over two lists one after the other. -/
theorem normalizeLoop_append (berlin : Location) (xs ys : List BsaScheduleUntyped)
    (acc : List BsaSchedule) :
    normalizeLoop berlin (xs ++ ys) acc
      = (normalizeLoop berlin xs acc).bind (fun acc1 => normalizeLoop berlin ys acc1) := by
  induction xs generalizing acc with
  | nil => simp [normalizeLoop]
  | cons r rest ih =>
    simp only [List.cons_append, normalizeLoop]
    cases hb : loopBody berlin r with
    | skip => simpa using ih acc
    | fatal => simp
    | append e => simpa using ih (acc ++ [e])

/-- Every entry of the result is in the slice the loop started from or was
appended for a record of the input. -/
theorem mem_normalizeLoop (berlin : Location) (rs : List BsaScheduleUntyped)
    (acc out : List BsaSchedule) (h : normalizeLoop berlin rs acc = some out)
    (e : BsaSchedule) (he : e ∈ out) :
    e ∈ acc ∨ ∃ r ∈ rs, loopBody berlin r = .append e := by
  induction rs generalizing acc with
  | nil =>
    simp only [normalizeLoop, Option.some.injEq] at h
    exact Or.inl (h ▸ he)
  | cons r rest ih =>
    simp only [normalizeLoop] at h
    cases hb : loopBody berlin r with
    | skip =>
      rw [hb] at h
      rcases ih acc h with h1 | ⟨r1, hr1, h1⟩
      · exact Or.inl h1
      · exact Or.inr ⟨r1, List.mem_cons_of_mem _ hr1, h1⟩
    | fatal => rw [hb] at h; exact absurd h (by simp)
    | append e1 =>
      rw [hb] at h
      rcases ih (acc ++ [e1]) h with h1 | ⟨r1, hr1, h1⟩
      · rcases List.mem_append.mp h1 with h2 | h2
        · exact Or.inl h2
        · have : e = e1 := by simpa using h2
          exact Or.inr ⟨r, List.mem_cons_self _ _, this ▸ hb⟩
      · exact Or.inr ⟨r1, List.mem_cons_of_mem _ hr1, h1⟩


/-! ## What `time.Parse` accepts -/

theorem digitChar_not_space (c : Char) (h : digitChar c = true) : isSpace c = false := by
  simp only [digitChar, Bool.and_eq_true, decide_eq_true_eq] at h
  simp only [isSpace, Bool.or_eq_false_iff, Bool.and_eq_false_iff, decide_eq_false_iff_not,
    beq_eq_false_iff_ne, ne_eq]
  omega

/-- The last character of a non-empty tail is the last character of the text. -/
theorem getLast?_of_drop (v : List Char) (k : Nat) (c : Char)
    (h : (v.drop k).getLast? = some c) : v.getLast? = some c := by
  rw [List.getLast?_drop] at h
  split at h
  · simp at h
  · exact h

/-- A text with a value starts with a digit. -/
theorem digitsValue_head (c : Char) (cs : List Char) (x y : Nat)
    (h : digitsValue (c :: cs) x = some y) : digitChar c = true := by
  simp only [digitsValue] at h
  split at h
  · assumption
  · simp at h

/-- A literal that is found leaves the text after its first character. -/
theorem skip_some (v r : List Char) (c : Char) (h : skip v c = some r) : r = v.drop 1 := by
  cases v with
  | nil => simp [skip] at h
  | cons a v =>
    simp only [skip] at h
    split at h
    · simpa using h.symm
    · simp at h

/-- The text left by `getnum` is a tail of its input. -/
theorem getnum_some (v r : List Char) (fixed : Bool) (n : Nat)
    (h : getnum v fixed = some (n, r)) : ∃ k, r = v.drop k := by
  cases v with
  | nil => simp [getnum] at h
  | cons a v =>
    simp only [getnum] at h
    split at h
    · simp at h
    · cases v with
      | nil =>
        simp only at h
        split at h
        · simp at h
        · simp only [Option.some.injEq, Prod.mk.injEq] at h
          exact ⟨1, by simpa using h.2.symm⟩
      | cons b v =>
        simp only at h
        split at h
        · simp only [Option.some.injEq, Prod.mk.injEq] at h
          exact ⟨2, by simpa using h.2.symm⟩
        · split at h
          · simp at h
          · simp only [Option.some.injEq, Prod.mk.injEq] at h
            exact ⟨1, by simpa using h.2.symm⟩

/-- Two characters read as a number of fixed width end with a digit. -/
theorem getnum_fixed_two (a b : Char) (n : Nat) (r : List Char)
    (h : getnum [a, b] true = some (n, r)) : digitChar b = true := by
  simp only [getnum] at h
  split at h
  · simp at h
  · split at h
    · assumption
    · simp at h

/-- The text left by the seconds element is a tail of its input. -/
theorem parseSeconds_some (v r : List Char) (sec nsec : Nat)
    (h : parseSeconds v = some (sec, nsec, r)) : ∃ k, r = v.drop k := by
  unfold parseSeconds at h
  split at h
  · simp at h
  · rename_i sec1 v1 hg
    obtain ⟨k, hk⟩ := getnum_some _ _ _ _ hg
    split at h
    · simp at h
    · split at h
      · simp only at h
        split at h
        · simp only [Option.some.injEq, Prod.mk.injEq] at h
          exact ⟨k + (2 + countDigits (List.drop 2 v1)), by rw [← h.2.2, hk, List.drop_drop]⟩
        · simp at h
      · simp only [Option.some.injEq, Prod.mk.injEq] at h
        exact ⟨k, by rw [← h.2.2, hk]⟩

/-- When the zone element uses up the text, the text ends with `Z` or with a digit. -/
theorem parseZone_end (v r : List Char) (z : Option Int)
    (h : parseZone v = some (z, r)) (hr : r = []) :
    ∃ c, v.getLast? = some c ∧ (c = 'Z' ∨ digitChar c = true) := by
  unfold parseZone at h
  split at h
  · simp only [Option.some.injEq, Prod.mk.injEq] at h
    rw [← h.2] at hr
    subst hr
    exact ⟨'Z', rfl, Or.inl rfl⟩
  · split at h
    · simp at h
    · rename_i hlen
      have hd : v.drop 6 = [] := by
        split at h
        · simp at h
        · split at h
          · split at h
            · simp at h
            · split at h
              · simp only [Option.some.injEq, Prod.mk.injEq] at h; rw [h.2]; exact hr
              · split at h
                · simp only [Option.some.injEq, Prod.mk.injEq] at h; rw [h.2]; exact hr
                · simp at h
          · simp at h
      have hl : v.length = 6 := by
        have := List.drop_eq_nil_iff.mp hd
        omega
      rcases v with _ | ⟨a, _ | ⟨b, _ | ⟨c, _ | ⟨d, _ | ⟨e, _ | ⟨f, _ | ⟨g, v⟩⟩⟩⟩⟩⟩⟩ <;>
        simp at hl
      refine ⟨f, by simp, Or.inr ?_⟩
      split at h
      · simp at h
      · split at h
        · rename_i hr1 mm r2 _ hg
          exact getnum_fixed_two e f _ _ (by simpa [slice] using hg)
        · simp at h


/-- A text the general parser accepts ends with `Z` or with a digit. -/
theorem parse_end (value : List Char) (t : Time) (h : parse value = some t) :
    ∃ c, value.getLast? = some c ∧ (c = 'Z' ∨ digitChar c = true) := by
  unfold parse at h
  split at h
  · simp at h
  split at h
  · simp at h
  split at h
  · simp at h
  rename_i month v1 h1
  split at h
  · simp at h
  split at h
  · simp at h
  rename_i day v2 h2
  split at h
  · simp at h
  rename_i hour v3 h3
  split at h
  · simp at h
  split at h
  · simp at h
  rename_i min v4 h4
  split at h
  · simp at h
  split at h
  · simp at h
  rename_i sec nsec v5 h5
  split at h
  · simp at h
  rename_i zone v6 h6
  split at h
  · simp at h
  rename_i hv6
  have hv6 : v6 = [] := by simpa using hv6
  obtain ⟨c, hc, hz⟩ := parseZone_end v5 v6 zone h6 hv6
  -- every remainder is a tail of the text before it
  obtain ⟨w1, hw1, hg1⟩ := Option.bind_eq_some.mp h1
  obtain ⟨w2, hw2, hg2⟩ := Option.bind_eq_some.mp h2
  obtain ⟨w3, hw3, hg3⟩ := Option.bind_eq_some.mp h3
  obtain ⟨w4, hw4, hg4⟩ := Option.bind_eq_some.mp h4
  obtain ⟨w5, hw5, hg5⟩ := Option.bind_eq_some.mp h5
  obtain ⟨k1, hk1⟩ := getnum_some _ _ _ _ hg1
  obtain ⟨k2, hk2⟩ := getnum_some _ _ _ _ hg2
  obtain ⟨k3, hk3⟩ := getnum_some _ _ _ _ hg3
  obtain ⟨k4, hk4⟩ := getnum_some _ _ _ _ hg4
  obtain ⟨k5, hk5⟩ := parseSeconds_some _ _ _ _ hg5
  have e1 := skip_some _ _ _ hw1
  have e2 := skip_some _ _ _ hw2
  have e3 := skip_some _ _ _ hw3
  have e4 := skip_some _ _ _ hw4
  have e5 := skip_some _ _ _ hw5
  refine ⟨c, ?_, hz⟩
  rw [hk5, e5, hk4, e4, hk3, e3, hk2, e2, hk1, e1] at hc
  simp only [List.drop_drop] at hc
  exact getLast?_of_drop _ _ _ hc

/-- Two characters read as an unsigned number end with a digit. -/
theorem parseUint_two_digit (a b : Char) (lo hi x : Nat)
    (h : parseUint [a, b] lo hi = some x) : digitChar b = true := by
  unfold parseUint at h
  split at h
  · rename_i y hy
    simp only [digitsValue] at hy
    split at hy
    · exact digitsValue_head b [] _ _ hy
    · simp at hy
  · simp at h

/-- The zone text of the fast path ends with `Z` or with a digit. -/
theorem fast_zone_end (s : List Char) (mm : Nat)
    (hz : (s.length == 1 && s.get? 0 == some 'Z') = true
      ∨ (s.length = 6 ∧ parseUint (slice s 4 6) 0 59 = some mm)) :
    ∃ c, s.getLast? = some c ∧ (c = 'Z' ∨ digitChar c = true) := by
  rcases hz with hz | ⟨hl, hm⟩
  · rcases s with _ | ⟨a, _ | ⟨b, s⟩⟩ <;> simp at hz
    exact ⟨a, rfl, Or.inl hz⟩
  · rcases s with _ | ⟨a, _ | ⟨b, _ | ⟨c, _ | ⟨d, _ | ⟨e, _ | ⟨f, _ | ⟨g, v⟩⟩⟩⟩⟩⟩⟩ <;>
      simp at hl
    exact ⟨f, by simp, Or.inr (parseUint_two_digit e f 0 59 mm (by simpa [slice] using hm))⟩

/-- A text the fast path accepts ends with `Z` or with a digit. -/
theorem parseRFC3339_end (s : List Char) (t : Time) (h : parseRFC3339 s = some t) :
    ∃ c, s.getLast? = some c ∧ (c = 'Z' ∨ digitChar c = true) := by
  unfold parseRFC3339 at h
  split at h
  · simp at h
  split at h
  swap
  · simp at h
  split at h
  swap
  · simp at h
  split at h
  · simp at h
  simp only at h
  -- the text left for the zone is a tail of the input
  generalize hs2 : (if (decide (2 ≤ (List.drop 19 s).length) && (List.drop 19 s).get? 0 == some '.'
      && isDigit (List.drop 19 s) 1) = true
      then List.drop (2 + countDigits (List.drop 2 (List.drop 19 s))) (List.drop 19 s)
      else List.drop 19 s) = s2 at h
  have htail : ∃ k, s2 = s.drop k := by
    rw [← hs2]
    split
    · exact ⟨_, List.drop_drop _ _ _⟩
    · exact ⟨19, rfl⟩
  obtain ⟨k, hk⟩ := htail
  have hend : ∃ c, s2.getLast? = some c ∧ (c = 'Z' ∨ digitChar c = true) := by
    split at h
    · rename_i hz
      exact fast_zone_end s2 0 (Or.inl hz)
    · split at h
      · simp at h
      · rename_i hl
        split at h
        · rename_i hr mm _ hmm
          exact fast_zone_end s2 mm (Or.inr ⟨by simpa using hl, hmm⟩)
        · simp at h
  obtain ⟨c, hc, hz⟩ := hend
  exact ⟨c, getLast?_of_drop s k c (hk ▸ hc), hz⟩


/-- A text the general parser accepts starts with a digit. -/
theorem parse_head (value : List Char) (t : Time) (h : parse value = some t) :
    ∃ c rest, value = c :: rest ∧ digitChar c = true := by
  unfold parse at h
  split at h
  · simp at h
  · rename_i hd
    cases value with
    | nil => simp [isDigit] at hd
    | cons c rest =>
      refine ⟨c, rest, rfl, ?_⟩
      simp only [Bool.or_eq_true, not_or] at hd
      simpa [isDigit] using hd.2

/-- A text the fast path accepts starts with a digit. -/
theorem parseRFC3339_head (s : List Char) (t : Time) (h : parseRFC3339 s = some t) :
    ∃ c rest, s = c :: rest ∧ digitChar c = true := by
  unfold parseRFC3339 at h
  split at h
  · simp at h
  rename_i hlen
  split at h
  swap
  · simp at h
  rename_i year month hy hm
  cases s with
  | nil => simp at hlen
  | cons c rest =>
    refine ⟨c, rest, rfl, ?_⟩
    unfold parseUint at hy
    split at hy
    · rename_i y hdv
      exact digitsValue_head c _ 0 y (by simpa [slice] using hdv)
    · simp at hy

/-- A text that `time.Parse` accepts starts with a digit and ends with a digit
or with `Z` . -/
theorem Parse_ends (value : List Char) (t : Time) (h : Parse value = some t) :
    (∃ c rest, value = c :: rest ∧ digitChar c = true)
      ∧ ∃ c, value.getLast? = some c ∧ (c = 'Z' ∨ digitChar c = true) := by
  unfold Parse at h
  split at h
  · rename_i t1 h1
    exact ⟨parseRFC3339_head value t1 h1, parseRFC3339_end value t1 h1⟩
  · exact ⟨parse_head value t h, parse_end value t h⟩

/-- A text that `time.Parse` accepts has no white space around it. -/
theorem Parse_trimmed (value : List Char) (t : Time) (h : Parse value = some t) :
    TrimSpace value = value := by
  obtain ⟨⟨c, rest, hv, hc⟩, ⟨z, hz, hzc⟩⟩ := Parse_ends value t h
  have hcs : isSpace c = false := digitChar_not_space c hc
  have hzs : isSpace z = false := by
    rcases hzc with rfl | hzc
    · decide
    · exact digitChar_not_space z hzc
  have hleft : TrimLeft value = value := by
    rw [hv]; simp [TrimLeft, List.dropWhile, hcs]
  have hright : TrimRight value = value := by
    unfold TrimRight
    have hrev : value.reverse.head? = some z := by simpa using hz
    cases hr : value.reverse with
    | nil => rw [hr] at hrev; simp at hrev
    | cons a tl =>
      rw [hr] at hrev
      have : a = z := by simpa using hrev
      subst this
      rw [List.dropWhile_cons_of_neg (by simp [hzs]), ← hr, List.reverse_reverse]
  unfold TrimSpace
  rw [hleft, hright]

/-! ## Calendar bounds and the shape of the date text -/

/-- The day of the year returned by `yearDay` is at most 365, and is 365 only
in a leap year. -/
theorem yearDay_bound (days : Int) :
    (yearDay days).2 ≤ 365 ∧ ((yearDay days).2 = 365 → isLeap (yearDay days).1 = true) := by
  have hd : ((days + 719162) % 146097).toNat < 146097 := by omega
  simp only [yearDay, isLeap, Bool.and_eq_true, Bool.or_eq_true, beq_iff_eq, bne_iff_ne, ne_eq]
  generalize ((days + 719162) % 146097).toNat = d0 at *
  generalize (days + 719162) / 146097 = n400
  generalize ha : d0 / 36524 - d0 / 36524 / 4 = a
  have ha3 : a ≤ 3 ∧ d0 - 36524 * a ≤ 36524 ∧ (d0 - 36524 * a = 36524 → a = 3) := by omega
  generalize d0 - 36524 * a = d1 at *
  generalize hn4 : d1 / 1461 = n4
  have h4 : n4 ≤ 24 ∧ d1 - 1461 * n4 ≤ 1460
      ∧ (n4 = 24 → d1 - 1461 * n4 = 1460 → d1 = 36524) := by omega
  generalize d1 - 1461 * n4 = d2 at *
  generalize hb : d2 / 365 - d2 / 365 / 4 = b
  have h1 : b ≤ 3 ∧ d2 - 365 * b ≤ 365 ∧ (d2 - 365 * b = 365 → b = 3 ∧ d2 = 1460) := by omega
  generalize d2 - 365 * b = d3 at *
  omega

/-- The civil month lies in 1..12 and the civil day in 1..31. -/
theorem civil_bounds (t : Time) :
    1 ≤ t.civil.2.1 ∧ t.civil.2.1 ≤ 12 ∧ 1 ≤ t.civil.2.2 ∧ t.civil.2.2 ≤ 31 := by
  have hb := yearDay_bound (t.abs / 86400)
  simp only [Time.civil]
  generalize yearDay (t.abs / 86400) = yd at *
  obtain ⟨year, yday⟩ := yd
  simp only at hb ⊢
  split
  · simp
  · rename_i hleap
    generalize hday : (if (isLeap year && decide (59 < yday)) = true then yday - 1 else yday) = day
    have hday364 : day ≤ 364 := by
      by_cases hl : isLeap year = true
      · by_cases h59 : 59 < yday
        · simp [hl, h59] at hday; omega
        · simp [hl, h59] at hday; omega
      · have : yday ≠ 365 := fun h => hl (hb.2 h)
        simp [hl] at hday; omega
    have hm : day / 31 ≤ 11 := by omega
    generalize hmq : day / 31 = m at *
    interval_cases m <;> simp only [daysBefore] <;> split <;> simp <;> omega


/-- A number below ten has one digit. -/
theorem utoa_small (fuel u : Nat) (h : u < 10) :
    utoa (fuel + 1) u = [Char.ofNat (48 + u % 10)] := by
  simp [utoa, h]

/-- The last digit of a number of several digits. -/
theorem utoa_step (fuel u : Nat) (h : 10 ≤ u) :
    utoa (fuel + 1) u = utoa fuel (u / 10) ++ [Char.ofNat (48 + u % 10)] := by
  have : ¬ u < 10 := by omega
  simp [utoa, this]

/-- A number of two digits. -/
theorem utoa_two (fuel u : Nat) (h1 : 10 ≤ u) (h2 : u < 100) :
    utoa (fuel + 2) u = [Char.ofNat (48 + u / 10), Char.ofNat (48 + u % 10)] := by
  rw [utoa_step _ _ h1, utoa_small _ _ (by omega)]
  have : u / 10 % 10 = u / 10 := by omega
  simp [this]

/-- A number of three digits. -/
theorem utoa_three (fuel u : Nat) (h1 : 100 ≤ u) (h2 : u < 1000) :
    utoa (fuel + 3) u
      = [Char.ofNat (48 + u / 100), Char.ofNat (48 + u / 10 % 10), Char.ofNat (48 + u % 10)] := by
  rw [utoa_step _ _ (by omega), utoa_two _ _ (by omega) (by omega)]
  have : u / 10 / 10 = u / 100 := by omega
  simp [this]

/-- A number of four digits. -/
theorem utoa_four (fuel u : Nat) (h1 : 1000 ≤ u) (h2 : u < 10000) :
    utoa (fuel + 4) u
      = [Char.ofNat (48 + u / 1000), Char.ofNat (48 + u / 100 % 10),
          Char.ofNat (48 + u / 10 % 10), Char.ofNat (48 + u % 10)] := by
  rw [utoa_step _ _ (by omega), utoa_three _ _ (by omega) (by omega)]
  have h3 : u / 10 / 100 = u / 1000 := by omega
  have h4 : u / 10 / 10 % 10 = u / 100 % 10 := by omega
  simp [h3, h4]

/-- A number below one hundred printed on two digits. -/
theorem appendInt_two (n : Nat) (h : n < 100) :
    appendInt (n : Int) 2 = [Char.ofNat (48 + n / 10), Char.ofNat (48 + n % 10)] := by
  have hneg : ¬ ((n : Int) < 0) := by omega
  simp only [appendInt, Int.natAbs_ofNat, hneg, if_false, List.nil_append]
  by_cases h10 : n < 10
  · rw [utoa_small _ _ h10]
    have : n / 10 = 0 := by omega
    simp [this]
  · obtain ⟨f, hf⟩ : ∃ f, n + 1 = f + 2 := ⟨n - 1, by omega⟩
    rw [hf, utoa_two _ _ (by omega) h]
    simp

/-- A year from 0 to 9999 printed on four digits. -/
theorem appendInt_four (n : Nat) (h : n < 10000) :
    appendInt (n : Int) 4
      = [Char.ofNat (48 + n / 1000), Char.ofNat (48 + n / 100 % 10),
          Char.ofNat (48 + n / 10 % 10), Char.ofNat (48 + n % 10)] := by
  have hneg : ¬ ((n : Int) < 0) := by omega
  simp only [appendInt, Int.natAbs_ofNat, hneg, if_false, List.nil_append]
  by_cases h10 : n < 10
  · rw [utoa_small _ _ h10]
    have h1 : n / 1000 = 0 := by omega
    have h2 : n / 100 % 10 = 0 := by omega
    have h3 : n / 10 % 10 = 0 := by omega
    simp [h1, h2, h3]
  · by_cases h100 : n < 100
    · obtain ⟨f, hf⟩ : ∃ f, n + 1 = f + 2 := ⟨n - 1, by omega⟩
      rw [hf, utoa_two _ _ (by omega) h100]
      have h1 : n / 1000 = 0 := by omega
      have h2 : n / 100 % 10 = 0 := by omega
      have h3 : n / 10 % 10 = n / 10 := by omega
      simp [h1, h2, h3]
    · by_cases h1000 : n < 1000
      · obtain ⟨f, hf⟩ : ∃ f, n + 1 = f + 3 := ⟨n - 2, by omega⟩
        rw [hf, utoa_three _ _ (by omega) h1000]
        have h1 : n / 1000 = 0 := by omega
        have h2 : n / 100 % 10 = n / 100 := by omega
        simp [h1, h2]
      · obtain ⟨f, hf⟩ : ∃ f, n + 1 = f + 4 := ⟨n - 3, by omega⟩
        rw [hf, utoa_four _ _ (by omega) h]
        simp

/-- For a year from 0 to 9999 the date text has ten characters: two digits of
the day, a dot, two digits of the month, a dot, four digits of the year. -/
theorem Format_shape (t : Time) (h0 : 0 ≤ t.civil.1) (h1 : t.civil.1 ≤ 9999) :
    t.Format
      = [Char.ofNat (48 + t.civil.2.2 / 10), Char.ofNat (48 + t.civil.2.2 % 10), '.',
          Char.ofNat (48 + t.civil.2.1 / 10), Char.ofNat (48 + t.civil.2.1 % 10), '.',
          Char.ofNat (48 + t.civil.1.toNat / 1000), Char.ofNat (48 + t.civil.1.toNat / 100 % 10),
          Char.ofNat (48 + t.civil.1.toNat / 10 % 10), Char.ofNat (48 + t.civil.1.toNat % 10)] := by
  obtain ⟨_, hm, _, hd⟩ := civil_bounds t
  simp only [Time.Format]
  generalize t.civil = c at *
  obtain ⟨y, m, d⟩ := c
  simp only at *
  have hy : y = ((y.toNat : Nat) : Int) := by omega
  rw [appendInt_two _ (by omega), appendInt_two _ (by omega)]
  conv_lhs => rw [hy]
  rw [appendInt_four _ (by omega)]
  simp

/-- The digit character of a number below ten is a digit with that value. -/
theorem digit_ofNat (k : Nat) (h : k < 10) :
    digitChar (Char.ofNat (48 + k)) = true ∧ (Char.ofNat (48 + k)).toNat - 48 = k := by
  interval_cases k <;> exact ⟨by decide, by decide⟩

/-- Every character printed by `utoa` is a digit. -/
theorem utoa_digits (fuel u : Nat) : ∀ c ∈ utoa fuel u, digitChar c = true := by
  induction fuel generalizing u with
  | zero => simp [utoa]
  | succ f ih =>
    intro c hc
    simp only [utoa, List.mem_append, List.mem_singleton] at hc
    rcases hc with hc | hc
    · split at hc
      · simp at hc
      · exact ih _ c hc
    · rw [hc]
      exact (digit_ofNat (u % 10) (Nat.mod_lt _ (by decide))).1

/-- The value of a digit string with one more digit at its end. -/
theorem digitsValue_snoc (xs : List Char) (c : Char) (x v : Nat) (hc : digitChar c = true)
    (h : digitsValue xs x = some v) : digitsValue (xs ++ [c]) x = some (v * 10 + (c.toNat - 48)) := by
  induction xs generalizing x with
  | nil =>
    simp only [digitsValue, Option.some.injEq] at h
    simp [digitsValue, hc, h]
  | cons a xs ih =>
    simp only [digitsValue, List.cons_append] at h ⊢
    split at h
    · rename_i ha
      simp only [ha, if_true]
      exact ih _ h
    · simp at h

/-- With enough fuel `utoa` prints the decimal digits of its argument. -/
theorem utoa_value (fuel u : Nat) (h : u < fuel) : digitsValue (utoa fuel u) 0 = some u := by
  induction fuel generalizing u with
  | zero => omega
  | succ f ih =>
    obtain ⟨hd, hv⟩ := digit_ofNat (u % 10) (Nat.mod_lt _ (by decide))
    by_cases h10 : u < 10
    · rw [utoa_small _ _ h10]
      simp only [digitsValue, hd, if_true, hv, Option.some.injEq]
      omega
    · rw [utoa_step _ _ (by omega)]
      rw [digitsValue_snoc _ _ 0 (u / 10) hd (ih (u / 10) (by omega)), hv]
      congr 1
      omega

/-- A number below `10 ^ k` is printed on at most `k` digits. -/
theorem utoa_length_le (fuel u k : Nat) (hk : 1 ≤ k) (h : u < 10 ^ k) :
    (utoa fuel u).length ≤ k := by
  induction fuel generalizing u k with
  | zero => simp [utoa]
  | succ f ih =>
    by_cases h10 : u < 10
    · rw [utoa_small _ _ h10]; simpa using hk
    · rw [utoa_step _ _ (by omega)]
      obtain ⟨j, rfl⟩ : ∃ j, k = j + 1 := ⟨k - 1, by omega⟩
      have hj : 1 ≤ j := by
        rcases Nat.eq_zero_or_pos j with h0 | h0
        · subst h0; simp at h; omega
        · exact h0
      have hu : u / 10 < 10 ^ j := by
        rw [pow_succ] at h
        exact Nat.div_lt_of_lt_mul (by rw [Nat.mul_comm]; exact h)
      have := ih (u / 10) j hj hu
      simp only [List.length_append, List.length_singleton]
      omega

/-- Zeros in front do not change the value of a digit string. -/
theorem digitsValue_zeros (k : Nat) (ds : List Char) :
    digitsValue (List.replicate k '0' ++ ds) 0 = digitsValue ds 0 := by
  induction k with
  | zero => simp
  | succ j ih =>
    rw [List.replicate_succ, List.cons_append, digitsValue]
    have : digitChar '0' = true := by decide
    simp only [this, if_true]
    exact ih

/-- Go `appendInt`: a minus sign for a negative number, then at least `width`
decimal digits whose value is the absolute value; exactly `width` digits when
the absolute value is below `10 ^ width` . -/
theorem appendInt_shape (x : Int) (width : Nat) (hw : 1 ≤ width) :
    ∃ digits, appendInt x width = (if x < 0 then ['-'] else []) ++ digits
      ∧ width ≤ digits.length
      ∧ (∀ c ∈ digits, digitChar c = true)
      ∧ digitsValue digits 0 = some x.natAbs
      ∧ (x.natAbs < 10 ^ width → digits.length = width) := by
  refine ⟨List.replicate (width - (utoa (x.natAbs + 1) x.natAbs).length) '0'
    ++ utoa (x.natAbs + 1) x.natAbs, ?_, ?_, ?_, ?_, ?_⟩
  · simp [appendInt]
  · simp only [List.length_append, List.length_replicate]; omega
  · intro c hc
    rcases List.mem_append.mp hc with hc | hc
    · rw [(List.mem_replicate.mp hc).2]; decide
    · exact utoa_digits _ _ c hc
  · rw [digitsValue_zeros]
    exact utoa_value _ _ (by omega)
  · intro hlt
    have := utoa_length_le (x.natAbs + 1) x.natAbs width hw hlt
    simp only [List.length_append, List.length_replicate]
    omega

/-! ## Lemmas on the body of the loop and on rendering -/

/-- A record with a blank field is skipped. -/
theorem loopBody_blank (berlin : Location) (r : BsaScheduleUntyped)
    (h : BlankField r.Weekday ∨ BlankField r.Date ∨ BlankField r.State) :
    loopBody berlin r = .skip := by
  obtain ⟨jw, jd, js⟩ := r
  cases jw with
  | string w =>
    by_cases hwl : TrimSpace w = []
    · simp [loopBody, hwl]
    · cases jd with
      | string d =>
        by_cases hdl : TrimSpace d = []
        · simp [loopBody, hwl, hdl]
        · cases js with
          | string s =>
            by_cases hsl : TrimSpace s = []
            · simp [loopBody, hwl, hdl, hsl]
            · rcases h with h | h | h
              · exact absurd (h w rfl) hwl
              · exact absurd (h d rfl) hdl
              · exact absurd (h s rfl) hsl
          | _ => simp [loopBody, hwl, hdl]
      | _ => simp [loopBody, hwl]
  | _ => simp [loopBody]

/-- The entry of the specification is the entry the body of the loop appends. -/
theorem specEntry_eq_loopBody (r : BsaScheduleUntyped) :
    specEntry r = match loopBody .Berlin r with
      | .append e => some e
      | _ => none := by
  obtain ⟨jw, jd, js⟩ := r
  cases jw with
  | string w =>
    cases jd with
    | string d =>
      cases js with
      | string s =>
        by_cases hwl : TrimSpace w = []
        · simp [specEntry, loopBody, hwl]
        · by_cases hdl : TrimSpace d = []
          · simp [specEntry, loopBody, hwl, hdl]
          · by_cases hsl : TrimSpace s = []
            · simp [specEntry, loopBody, hwl, hdl, hsl]
            · cases ht : Parse d with
              | none => simp [specEntry, loopBody, hwl, hdl, hsl, ht]
              | some t =>
                by_cases hh : (t.In .Berlin).Hour = 0
                · simp [specEntry, loopBody, hwl, hdl, hsl, ht, hh]
                · simp [specEntry, loopBody, hwl, hdl, hsl, ht, hh]
      | _ =>
        by_cases hwl : TrimSpace w = []
        · simp [specEntry, loopBody, hwl]
        · by_cases hdl : TrimSpace d = []
          · simp [specEntry, loopBody, hwl, hdl]
          · simp [specEntry, loopBody, hwl, hdl]
    | _ =>
      by_cases hwl : TrimSpace w = []
      · simp [specEntry, loopBody, hwl]
      · simp [specEntry, loopBody, hwl]
  | _ => simp [specEntry, loopBody]

/-- The loop yields the slice it started from followed by the entries of the
specification, in the order of the records. -/
theorem normalizeLoop_filterMap (rs : List BsaScheduleUntyped) (acc out : List BsaSchedule)
    (h : normalizeLoop .Berlin rs acc = some out) : out = acc ++ rs.filterMap specEntry := by
  induction rs generalizing acc with
  | nil =>
    simp only [normalizeLoop, Option.some.injEq] at h
    simp [h]
  | cons r rest ih =>
    simp only [normalizeLoop] at h
    have hspec := specEntry_eq_loopBody r
    cases hb : loopBody .Berlin r with
    | skip =>
      rw [hb] at h hspec
      simp only at hspec
      rw [List.filterMap_cons, hspec]
      exact ih acc h
    | fatal => rw [hb] at h; exact absurd h (by simp)
    | append e =>
      rw [hb] at h hspec
      simp only at hspec
      rw [List.filterMap_cons, hspec, ih (acc ++ [e]) h]
      simp

/-- Dropping a skipped record from the input changes nothing. -/
theorem normalize_skip (pre post : List BsaScheduleUntyped) (r : BsaScheduleUntyped)
    (h : loopBody .Berlin r = .skip) :
    normalize (pre ++ r :: post) = normalize (pre ++ post) := by
  unfold normalize
  rw [normalizeLoop_append, normalizeLoop_append]
  congr 1
  funext acc1
  simp [normalizeLoop, h]

/-- A record on which the body of the loop is fatal ends the run wherever it
stands in the input. -/
theorem normalize_fatal (pre post : List BsaScheduleUntyped) (r : BsaScheduleUntyped)
    (h : loopBody .Berlin r = .fatal) : normalize (pre ++ r :: post) = none := by
  unfold normalize
  rw [normalizeLoop_append]
  cases normalizeLoop .Berlin pre [] with
  | none => rfl
  | some acc1 => simp [normalizeLoop, h]

/-- The row template filled with four strings. -/
theorem Sprintf_rowTmpl (a b c d : List Char) : Sprintf rowTmpl [a, b, c, d] = specRow a b c d := by
  simp [Sprintf, rowTmpl, specRow]

set_option maxRecDepth 100000 in
/-- The document template filled with a table body. -/
theorem Sprintf_htmlResultTmpl (body : List Char) :
    Sprintf htmlResultTmpl [body] = specDocument body := by
  simp [Sprintf, htmlResultTmpl, specDocument]

/-- The second loop of `main` appends the rows in the order of the entries. -/
theorem tableBodyLoop_eq (entries : List BsaSchedule) (tableBody : List Char) :
    tableBodyLoop entries tableBody = tableBody ++ (entries.map renderRow).flatten := by
  induction entries generalizing tableBody with
  | nil => simp [tableBodyLoop]
  | cons e rest ih => simp [tableBodyLoop, ih]

/-! ## The claims -/

/-- C1: on every list of decoded records on which the run is not fatal, the
output of the Normalizer is the list of the entries of the valid records, one
for each and no other, in the order of the input (nothing is merged or
sorted); a record is valid when weekday, date and status are strings that are
not empty once trimmed, the date parses with the layout RFC3339 and its hour
in Europe/Berlin is zero, and its entry carries the weekday and the status of
the record and the parsed date in Europe/Berlin. -/
theorem normalize_valid_records (rs : List BsaScheduleUntyped) (out : List BsaSchedule)
    (h : normalize rs = some out) :
    out = rs.filterMap specEntry
      ∧ ∀ r e, specEntry r = some e ↔
          ∃ w d s t, r.Weekday = .string w ∧ r.Date = .string d ∧ r.State = .string s
            ∧ TrimSpace w ≠ [] ∧ TrimSpace d ≠ [] ∧ TrimSpace s ≠ []
            ∧ Parse d = some t ∧ (t.In .Berlin).Hour = 0
            ∧ e = { Weekday := w, Date := t.In .Berlin, State := s } := by
  refine ⟨by simpa using normalizeLoop_filterMap rs [] out h, ?_⟩
  intro r e
  rw [specEntry_eq_loopBody]
  constructor
  · intro hs
    apply loopBody_append_inv .Berlin r e
    cases hb : loopBody .Berlin r with
    | skip => rw [hb] at hs; simp at hs
    | fatal => rw [hb] at hs; simp at hs
    | append e1 => rw [hb] at hs; simp only [Option.some.injEq] at hs; rw [hs]
  · rintro ⟨w, d, s, t, hw, hd, hs, hwl, hdl, hsl, ht, hh, he⟩
    rw [loopBody_strings .Berlin r w d s hw hd hs hwl hdl hsl, ht]
    simp [hh, he]

/-- Witness of C1: four records, of which the second has an empty weekday and
the fourth a date that does not parse; the first and the third give the two
entries, in that order. -/
theorem normalize_valid_records_witness :
    normalize [record "Montag" "2024-01-01T00:00:00+01:00" "offen",
        record "" "2024-01-02T00:00:00+01:00" "offen",
        record "Dienstag" "2024-06-30T22:00:00Z" "geschlossen",
        record "Mittwoch" "morgen" "offen"]
      = some [montagEntry,
          { Weekday := "Dienstag".toList, Date := { unixSec := 1719784800, nsec := 0, loc := .Berlin },
            State := "geschlossen".toList }]
    ∧ [montagEntry,
          { Weekday := "Dienstag".toList, Date := { unixSec := 1719784800, nsec := 0, loc := .Berlin },
            State := "geschlossen".toList }]
      = [record "Montag" "2024-01-01T00:00:00+01:00" "offen",
        record "" "2024-01-02T00:00:00+01:00" "offen",
        record "Dienstag" "2024-06-30T22:00:00Z" "geschlossen",
        record "Mittwoch" "morgen" "offen"].filterMap specEntry :=
  ⟨by decide, (normalize_valid_records _ _ (by decide)).1⟩

/-- C2: a record with a weekday, date or status that is absent, null, not a
string or blank is skipped without ending the run, and the run on the whole
input (entries, their order, fatal or not, document written) is the run on the
input without that record. -/
theorem blank_record_removed (pre post : List BsaScheduleUntyped) (r : BsaScheduleUntyped)
    (h : BlankField r.Weekday ∨ BlankField r.Date ∨ BlankField r.State) :
    loopBody .Berlin r = .skip
      ∧ normalize (pre ++ r :: post) = normalize (pre ++ post)
      ∧ mainDecoded (pre ++ r :: post) = mainDecoded (pre ++ post) := by
  have hskip := loopBody_blank .Berlin r h
  have hn := normalize_skip pre post r hskip
  exact ⟨hskip, hn, by simp [mainDecoded, hn]⟩

set_option maxRecDepth 100000 in
/-- Witness of C2: in the example of two records the record with the weekday
`""` is dropped, the Montag record still yields its entry, and the document
written for the payload has the single row Montag / 01.01.2024 / offen. -/
theorem blank_record_removed_witness :
    BlankField (record "" "2024-01-02T00:00:00+01:00" "offen").Weekday
      ∧ normalize [record "Montag" "2024-01-01T00:00:00+01:00" "offen",
          record "" "2024-01-02T00:00:00+01:00" "offen"]
        = normalize [record "Montag" "2024-01-01T00:00:00+01:00" "offen"]
      ∧ normalize [record "Montag" "2024-01-01T00:00:00+01:00" "offen"] = some [montagEntry]
      ∧ main (some examplePayload)
        = some (specDocument
            (specRow "offen".toList "Montag".toList "01.01.2024".toList "offen".toList)) := by
  have hb : BlankField (record "" "2024-01-02T00:00:00+01:00" "offen").Weekday := by
    intro s hs
    simp only [record, Json.string.injEq] at hs
    rw [← hs]
    rfl
  exact ⟨hb,
    (blank_record_removed [record "Montag" "2024-01-01T00:00:00+01:00" "offen"] []
      (record "" "2024-01-02T00:00:00+01:00" "offen") (Or.inl hb)).2.1,
    by decide, by decide⟩

/-- C3: a record of three strings that are not blank whose date does not parse
with the layout RFC3339 is skipped, never fatal, and the run on the whole input
is the run on the input without that record; the date is parsed as it stands,
so a text that trimming would change (white space before or after) never
parses. -/
theorem unparseable_date_skipped (pre post : List BsaScheduleUntyped) (r : BsaScheduleUntyped)
    (w d s : List Char) (hw : r.Weekday = .string w) (hd : r.Date = .string d)
    (hs : r.State = .string s) (hwl : TrimSpace w ≠ []) (hdl : TrimSpace d ≠ [])
    (hsl : TrimSpace s ≠ []) (hp : Parse d = none) :
    loopBody .Berlin r = .skip
      ∧ normalize (pre ++ r :: post) = normalize (pre ++ post)
      ∧ mainDecoded (pre ++ r :: post) = mainDecoded (pre ++ post)
      ∧ ∀ v, TrimSpace v ≠ v → Parse v = none := by
  have hskip : loopBody .Berlin r = .skip := by
    rw [loopBody_strings .Berlin r w d s hw hd hs hwl hdl hsl, hp]
  have hn := normalize_skip pre post r hskip
  refine ⟨hskip, hn, by simp [mainDecoded, hn], ?_⟩
  intro v hv
  cases hpv : Parse v with
  | none => rfl
  | some t => exact absurd (Parse_trimmed v t hpv) hv

/-- Witness of C3: a valid timestamp with a blank in front does not parse; its
record is dropped from between two valid records. -/
theorem unparseable_date_skipped_witness :
    Parse " 2024-01-02T00:00:00+01:00".toList = none
      ∧ Parse "2024-01-02T00:00:00+01:00".toList
        = some { unixSec := 1704150000, nsec := 0, loc := .FixedZone 3600 }
      ∧ normalize ([record "Montag" "2024-01-01T00:00:00+01:00" "offen"]
          ++ record "Dienstag" " 2024-01-02T00:00:00+01:00" "offen"
            :: [record "Mittwoch" "2024-01-03T00:00:00+01:00" "zu"])
        = normalize ([record "Montag" "2024-01-01T00:00:00+01:00" "offen"]
          ++ [record "Mittwoch" "2024-01-03T00:00:00+01:00" "zu"]) :=
  ⟨by decide, by decide,
    (unparseable_date_skipped [record "Montag" "2024-01-01T00:00:00+01:00" "offen"]
      [record "Mittwoch" "2024-01-03T00:00:00+01:00" "zu"]
      (record "Dienstag" " 2024-01-02T00:00:00+01:00" "offen")
      "Dienstag".toList " 2024-01-02T00:00:00+01:00".toList "offen".toList rfl rfl rfl
      (by decide) (by decide) (by decide) (by decide)).2.1⟩

/-- C4: a record of three strings that are not blank whose date parses and has
a local hour in Europe/Berlin other than zero ends the run in `log.Fatalf`
wherever it stands in the input and whatever the other records are: there is
no entry list and no document is written. -/
theorem nonzero_hour_fatal (pre post : List BsaScheduleUntyped) (r : BsaScheduleUntyped)
    (w d s : List Char) (t : Time) (hw : r.Weekday = .string w) (hd : r.Date = .string d)
    (hs : r.State = .string s) (hwl : TrimSpace w ≠ []) (hdl : TrimSpace d ≠ [])
    (hsl : TrimSpace s ≠ []) (hp : Parse d = some t) (hh : (t.In .Berlin).Hour ≠ 0) :
    loopBody .Berlin r = .fatal
      ∧ normalize (pre ++ r :: post) = none
      ∧ mainDecoded (pre ++ r :: post) = none
      ∧ ∀ read, Unmarshal read = some (pre ++ r :: post) → main read = none := by
  have hfatal : loopBody .Berlin r = .fatal := by
    rw [loopBody_strings .Berlin r w d s hw hd hs hwl hdl hsl, hp]
    simp [hh]
  have hn := normalize_fatal pre post r hfatal
  refine ⟨hfatal, hn, by simp [mainDecoded, hn], ?_⟩
  intro read hread
  simp [main, hread, mainDecoded, hn]

/-- Witness of C4: a record dated at noon behind a valid record; the run is
fatal although the first record alone gives an entry. -/
theorem nonzero_hour_fatal_witness :
    ((⟨1704106800, 0, .FixedZone 3600⟩ : Time).In .Berlin).Hour = 12
      ∧ mainDecoded [record "Montag" "2024-01-01T00:00:00+01:00" "offen"] ≠ none
      ∧ mainDecoded ([record "Montag" "2024-01-01T00:00:00+01:00" "offen"]
          ++ record "Dienstag" "2024-01-01T12:00:00+01:00" "offen" :: []) = none :=
  ⟨by decide, by decide,
    (nonzero_hour_fatal [record "Montag" "2024-01-01T00:00:00+01:00" "offen"] []
      (record "Dienstag" "2024-01-01T12:00:00+01:00" "offen")
      "Dienstag".toList "2024-01-01T12:00:00+01:00".toList "offen".toList
      ⟨1704106800, 0, .FixedZone 3600⟩ rfl rfl rfl
      (by decide) (by decide) (by decide) (by decide) (by decide)).2.2.1⟩

/-- C5: when `json.Unmarshal` of the payload into the slice of records fails,
the run is fatal: nothing is normalised or rendered and no document is
written; a JSON object in place of the array is such a payload. -/
theorem decode_failure_fatal (read : Option Json) (h : Unmarshal read = none) :
    main read = none ∧ ∀ members, main (some (.object members)) = none := by
  constructor
  · simp [main, h]
  · intro members
    simp [main, Unmarshal]

/-- Witness of C5: the object `{"wochentag": "Montag", ...}` sent without the
enclosing array fails to decode and the run is fatal. -/
theorem decode_failure_fatal_witness :
    Unmarshal (some (jsonRecord "Montag" "2024-01-01T00:00:00+01:00" "offen")) = none
      ∧ main (some (jsonRecord "Montag" "2024-01-01T00:00:00+01:00" "offen")) = none :=
  ⟨rfl, (decode_failure_fatal (some (jsonRecord "Montag" "2024-01-01T00:00:00+01:00" "offen"))
    rfl).1⟩

/-- The date text of a row is the text of the specification for the civil date
of the entry. -/
theorem Format_eq_specDate (t : Time) :
    t.Format = specDate t.civil.1 t.civil.2.1 t.civil.2.2 := by
  simp [Time.Format, specDate]

/-- One rendered row is the row of the specification. -/
theorem renderRow_eq (e : BsaSchedule) :
    renderRow e
      = specRow e.State e.Weekday (specDate e.Date.civil.1 e.Date.civil.2.1 e.Date.civil.2.2)
          e.State := by
  rw [renderRow, Sprintf_rowTmpl, Format_eq_specDate]

set_option maxRecDepth 100000 in
/-- Counterexample to C6: the record dated 9999-12-31T22:00:00-01:00 is
accepted (it is midnight of 1 January 10000 in Europe/Berlin) and its row shows
the date `01.01.10000`, a year of five digits; the record dated
0000-01-01T00:00:00+23:59 is accepted too and its date text is `31.12.-0001`,
a minus sign and four digits. -/
theorem four_digit_year_counterexample :
    normalize [record "Freitag" "9999-12-31T22:00:00-01:00" "offen"]
        = some [{ Weekday := "Freitag".toList,
                  Date := { unixSec := 253402297200, nsec := 0, loc := .Berlin },
                  State := "offen".toList }]
      ∧ render [{ Weekday := "Freitag".toList,
                  Date := { unixSec := 253402297200, nsec := 0, loc := .Berlin },
                  State := "offen".toList }]
        = specDocument
            (specRow "offen".toList "Freitag".toList "01.01.10000".toList "offen".toList)
      ∧ normalize [record "Samstag" "0000-01-01T00:00:00+23:59" "offen"]
        = some [{ Weekday := "Samstag".toList,
                  Date := { unixSec := -62167305540, nsec := 0, loc := .Berlin },
                  State := "offen".toList }]
      ∧ ({ unixSec := -62167305540, nsec := 0, loc := .Berlin } : Time).Format
        = "31.12.-0001".toList := by
  decide

set_option maxRecDepth 100000 in
/-- C6 as amended: for every list of entries the rendered document is the
fixed table skeleton around the rows of the entries, one row each in the order
of the list; a row is the row template with the status as class, the weekday,
the date text and the status again. The date text is the day on two digits, a
dot, the month on two digits, a dot, and the year in decimal padded with zeros
to at least four digits, after a minus sign when the year is negative; the
year has exactly four digits when its absolute value is below 10000. The empty
list gives the skeleton with an empty body, and the entry Montag / 2024-01-01
00:00 +01:00 / offen gives the single row with class offen and the cells
Montag, 01.01.2024, offen. -/
theorem render_rows (entries : List BsaSchedule) :
    render entries
        = specDocument ((entries.map (fun e =>
            specRow e.State e.Weekday e.Date.Format e.State)).flatten)
      ∧ render [] = specDocument []
      ∧ render [montagEntry]
        = specDocument
            (specRow "offen".toList "Montag".toList "01.01.2024".toList "offen".toList)
      ∧ ∀ e ∈ entries, ∃ yearDigits,
          e.Date.Format
            = [Char.ofNat (48 + e.Date.civil.2.2 / 10), Char.ofNat (48 + e.Date.civil.2.2 % 10),
                '.',
                Char.ofNat (48 + e.Date.civil.2.1 / 10), Char.ofNat (48 + e.Date.civil.2.1 % 10),
                '.']
              ++ ((if e.Date.civil.1 < 0 then ['-'] else []) ++ yearDigits)
          ∧ e.Date.civil.2.2 < 100 ∧ e.Date.civil.2.1 < 100
          ∧ 4 ≤ yearDigits.length
          ∧ (∀ c ∈ yearDigits, digitChar c = true)
          ∧ digitsValue yearDigits 0 = some e.Date.civil.1.natAbs
          ∧ (e.Date.civil.1.natAbs < 10000 → yearDigits.length = 4) := by
  refine ⟨?_, ?_, by decide, ?_⟩
  · rw [render, Sprintf_htmlResultTmpl, tableBodyLoop_eq]
    simp only [List.nil_append]
    have hrow : renderRow = fun e => specRow e.State e.Weekday e.Date.Format e.State :=
      funext (fun e => by rw [renderRow, Sprintf_rowTmpl])
    rw [hrow]
  · rw [render, Sprintf_htmlResultTmpl]
    rfl
  · intro e _
    obtain ⟨_, hm, _, hd⟩ := civil_bounds e.Date
    simp only [Time.Format]
    generalize e.Date.civil = c at *
    obtain ⟨y, m, d⟩ := c
    simp only at *
    obtain ⟨digits, hfmt, hlen, hdig, hval, hfour⟩ := appendInt_shape y 4 (by decide)
    refine ⟨digits, ?_, by omega, by omega, hlen, hdig, hval, fun h => hfour (by simpa using h)⟩
    rw [← hfmt, appendInt_two _ (by omega), appendInt_two _ (by omega)]
    simp

set_option maxRecDepth 100000 in
/-- Witness of C6 as amended: the list of the Montag entry, whose civil year is
2024; its date text is `01.01.2024`, with a year of four digits. -/
theorem render_rows_witness :
    montagEntry.Date.civil = (2024, 1, 1)
      ∧ montagEntry.Date.Format = "01.01.2024".toList
      ∧ ∃ yearDigits, montagEntry.Date.Format
            = [Char.ofNat (48 + montagEntry.Date.civil.2.2 / 10),
                Char.ofNat (48 + montagEntry.Date.civil.2.2 % 10), '.',
                Char.ofNat (48 + montagEntry.Date.civil.2.1 / 10),
                Char.ofNat (48 + montagEntry.Date.civil.2.1 % 10), '.']
              ++ ((if montagEntry.Date.civil.1 < 0 then ['-'] else []) ++ yearDigits)
          ∧ yearDigits.length = 4 := by
  refine ⟨by decide, by decide, ?_⟩
  obtain ⟨yearDigits, hfmt, _, _, _, _, _, hfour⟩ :=
    (render_rows [montagEntry]).2.2.2 montagEntry (by simp)
  exact ⟨yearDigits, hfmt, hfour (by decide)⟩

/-- C7: on every input on which normalisation completes, every entry of the
output has a weekday and a status that are not empty and a date, shown in
Europe/Berlin, whose local hour is zero. -/
theorem entries_nonempty_hour_zero (rs : List BsaScheduleUntyped) (out : List BsaSchedule)
    (h : normalize rs = some out) (e : BsaSchedule) (he : e ∈ out) :
    e.Weekday ≠ [] ∧ e.State ≠ [] ∧ e.Date.loc = .Berlin ∧ (e.Date.In .Berlin).Hour = 0 := by
  rcases mem_normalizeLoop .Berlin rs [] out h e he with h1 | ⟨r, _, hr⟩
  · simp at h1
  · obtain ⟨w, d, s, t, _, _, _, hwl, _, hsl, _, hh, rfl⟩ := loopBody_append_inv .Berlin r e hr
    refine ⟨?_, ?_, rfl, hh⟩
    · intro hc; exact hwl (by simp only at hc; rw [hc]; rfl)
    · intro hc; exact hsl (by simp only at hc; rw [hc]; rfl)

/-- Witness of C7: the entry of the Montag record. -/
theorem entries_nonempty_hour_zero_witness :
    normalize [record "Montag" "2024-01-01T00:00:00+01:00" "offen"] = some [montagEntry]
      ∧ montagEntry.Weekday ≠ [] ∧ montagEntry.State ≠ [] ∧ montagEntry.Date.loc = .Berlin
      ∧ (montagEntry.Date.In .Berlin).Hour = 0 :=
  ⟨by decide,
    entries_nonempty_hour_zero [record "Montag" "2024-01-01T00:00:00+01:00" "offen"]
      [montagEntry] (by decide) montagEntry (by simp)⟩

/-- Counterexample to C8: a record dated 00:30:15.5 local time is accepted, and
its entry has minute 30, second 15 and half a second. -/
theorem midnight_counterexample :
    normalize [record "Montag" "2024-01-01T00:30:15.5+01:00" "offen"]
        = some [{ Weekday := "Montag".toList,
                  Date := { unixSec := 1704065415, nsec := 500000000, loc := .Berlin },
                  State := "offen".toList }]
      ∧ ({ unixSec := 1704065415, nsec := 500000000, loc := .Berlin } : Time).Hour = 0
      ∧ ({ unixSec := 1704065415, nsec := 500000000, loc := .Berlin } : Time).Minute = 30
      ∧ ({ unixSec := 1704065415, nsec := 500000000, loc := .Berlin } : Time).Second = 15
      ∧ ({ unixSec := 1704065415, nsec := 500000000, loc := .Berlin } : Time).Nanosecond
        = 500000000 := by
  decide

/-- C8 as amended: every entry of the output has a date, shown in
Europe/Berlin, whose local hour is zero, so its time of day lies in the first
hour after local midnight; it is the instant parsed from the date of a record
of the input, with the minute, second and fraction of that instant. -/
theorem entries_first_hour (rs : List BsaScheduleUntyped) (out : List BsaSchedule)
    (h : normalize rs = some out) (e : BsaSchedule) (he : e ∈ out) :
    e.Date.loc = .Berlin ∧ e.Date.Hour = 0
      ∧ 0 ≤ e.Date.abs % 86400 ∧ e.Date.abs % 86400 < 3600
      ∧ ∃ r ∈ rs, ∃ d t, r.Date = .string d ∧ Parse d = some t ∧ e.Date = t.In .Berlin := by
  rcases mem_normalizeLoop .Berlin rs [] out h e he with h1 | ⟨r, hrs, hr⟩
  · simp at h1
  · obtain ⟨w, d, s, t, _, hd, _, _, _, _, ht, hh, rfl⟩ := loopBody_append_inv .Berlin r e hr
    refine ⟨rfl, hh, ?_, ?_, r, hrs, d, t, hd, ht, rfl⟩
    · show 0 ≤ (t.In .Berlin).abs % 86400
      omega
    · show (t.In .Berlin).abs % 86400 < 3600
      simp only [Time.Hour] at hh
      omega

/-- Witness of C8 as amended: the entry dated 00:30:15.5 local time. -/
theorem entries_first_hour_witness :
    normalize [record "Montag" "2024-01-01T00:30:15.5+01:00" "offen"]
        = some [{ Weekday := "Montag".toList,
                  Date := { unixSec := 1704065415, nsec := 500000000, loc := .Berlin },
                  State := "offen".toList }]
      ∧ ({ unixSec := 1704065415, nsec := 500000000, loc := .Berlin } : Time).abs % 86400
        < 3600 :=
  ⟨by decide,
    (entries_first_hour [record "Montag" "2024-01-01T00:30:15.5+01:00" "offen"]
      [{ Weekday := "Montag".toList,
         Date := { unixSec := 1704065415, nsec := 500000000, loc := .Berlin },
         State := "offen".toList }] (by decide)
      { Weekday := "Montag".toList,
        Date := { unixSec := 1704065415, nsec := 500000000, loc := .Berlin },
        State := "offen".toList } (by simp)).2.2.2.1⟩

/-- Counterexample to C9: a weekday and a status with white space around them
are accepted and stored as they are. -/
theorem trimmed_counterexample :
    normalize [record " Montag " "2024-01-01T00:00:00+01:00" "offen\n"]
        = some [{ Weekday := " Montag ".toList,
                  Date := { unixSec := 1704063600, nsec := 0, loc := .Berlin },
                  State := "offen\n".toList }]
      ∧ TrimSpace " Montag ".toList = "Montag".toList
      ∧ TrimSpace "offen\n".toList = "offen".toList := by
  decide

/-- C9 as amended: the weekday and the status of every entry of the output are
the strings of a record of the input, stored as given, white space around them
included; what remains of each after trimming is not empty. -/
theorem entries_stored_untrimmed (rs : List BsaScheduleUntyped) (out : List BsaSchedule)
    (h : normalize rs = some out) (e : BsaSchedule) (he : e ∈ out) :
    TrimSpace e.Weekday ≠ [] ∧ TrimSpace e.State ≠ []
      ∧ ∃ r ∈ rs, r.Weekday = .string e.Weekday ∧ r.State = .string e.State := by
  rcases mem_normalizeLoop .Berlin rs [] out h e he with h1 | ⟨r, hrs, hr⟩
  · simp at h1
  · obtain ⟨w, d, s, t, hw, _, hs, hwl, _, hsl, _, _, rfl⟩ := loopBody_append_inv .Berlin r e hr
    exact ⟨hwl, hsl, r, hrs, hw, hs⟩

/-- Witness of C9 as amended: the entry with the weekday ` Montag ` . -/
theorem entries_stored_untrimmed_witness :
    normalize [record " Montag " "2024-01-01T00:00:00+01:00" "offen\n"]
        = some [{ Weekday := " Montag ".toList,
                  Date := { unixSec := 1704063600, nsec := 0, loc := .Berlin },
                  State := "offen\n".toList }]
      ∧ TrimSpace " Montag ".toList ≠ [] :=
  ⟨by decide,
    (entries_stored_untrimmed [record " Montag " "2024-01-01T00:00:00+01:00" "offen\n"]
      [{ Weekday := " Montag ".toList,
         Date := { unixSec := 1704063600, nsec := 0, loc := .Berlin },
         State := "offen\n".toList }] (by decide)
      { Weekday := " Montag ".toList,
        Date := { unixSec := 1704063600, nsec := 0, loc := .Berlin },
        State := "offen\n".toList } (by simp)).1⟩

/-- C10: the date in the row of an accepted record is the civil date, in
Europe/Berlin, of the instant parsed from the date of the record, not the day
written in the text under its own offset. -/
theorem row_date_is_berlin_day (r : BsaScheduleUntyped) (e : BsaSchedule)
    (h : loopBody .Berlin r = .append e) :
    ∃ d t, r.Date = .string d ∧ Parse d = some t
      ∧ e.Date = { unixSec := t.unixSec, nsec := t.nsec, loc := .Berlin }
      ∧ e.Date.civil = (Time.mk (t.unixSec + berlinOffset t.unixSec) 0 .UTC).civil
      ∧ renderRow e
        = specRow e.State e.Weekday
            (specDate (t.In .Berlin).civil.1 (t.In .Berlin).civil.2.1 (t.In .Berlin).civil.2.2)
            e.State := by
  obtain ⟨w, d, s, t, _, hd, _, _, _, _, ht, _, rfl⟩ := loopBody_append_inv .Berlin r e h
  refine ⟨d, t, hd, ht, rfl, ?_, renderRow_eq _⟩
  simp [Time.civil, Time.abs, Time.In, Location.lookup]

set_option maxRecDepth 100000 in
/-- Witness of C10: the record dated 2024-06-30T22:00:00Z is accepted, its
local hour in Berlin summer time being zero, and its row shows 01.07.2024,
while the day of the instant under the offset of the text is 30.06.2024. -/
theorem row_date_is_berlin_day_witness :
    loopBody .Berlin (record "Sonntag" "2024-06-30T22:00:00Z" "offen")
        = .append { Weekday := "Sonntag".toList,
                    Date := { unixSec := 1719784800, nsec := 0, loc := .Berlin },
                    State := "offen".toList }
      ∧ Parse "2024-06-30T22:00:00Z".toList = some { unixSec := 1719784800, nsec := 0, loc := .UTC }
      ∧ ({ unixSec := 1719784800, nsec := 0, loc := .UTC } : Time).Format = "30.06.2024".toList
      ∧ renderRow { Weekday := "Sonntag".toList,
                    Date := { unixSec := 1719784800, nsec := 0, loc := .Berlin },
                    State := "offen".toList }
        = specRow "offen".toList "Sonntag".toList "01.07.2024".toList "offen".toList
      ∧ ∃ d t, (record "Sonntag" "2024-06-30T22:00:00Z" "offen").Date = .string d
          ∧ Parse d = some t := by
  refine ⟨by decide, by decide, by decide, by decide, ?_⟩
  obtain ⟨d, t, hd, ht, _⟩ := row_date_is_berlin_day
    (record "Sonntag" "2024-06-30T22:00:00Z" "offen")
    { Weekday := "Sonntag".toList,
      Date := { unixSec := 1719784800, nsec := 0, loc := .Berlin },
      State := "offen".toList } (by decide)
  exact ⟨d, t, hd, ht⟩

end BsaCal
